import Mathlib

/-!
Verification of the `juniper-compose` crate (macro crate `juniper-compose-macros`
plus runtime crate `juniper-compose`).

The repository is a compile-time code generator: `#[composable_object]` emits an
implementation of the `ComposableObject` trait (a static `fields()` list), and
`composite_object!(Name<Context = C>(P1, .., Pk))` emits a zero-sized composite
type with three behaviours generated over the list of composed paths:

* `GraphQLType::meta` — accumulates each composed type's field descriptors into
  one object type, panicking on a duplicated field name or on a field name that
  the composed type's own metadata does not know;
* `GraphQLValue::resolve_field` — an `if`-chain over the composed types, in
  composition order, delegating to the first whose static field list contains
  the requested name, else an error
  `Field `name` not found on type `CompositeName``;
* `GraphQLValueAsync::resolve_field_async` — the same chain delegating to the
  asynchronous resolver.

We embed the generated code's semantics shallowly: the list of composed paths
becomes a `List ComposableObject`; each composed type is described by the data
the generated code consumes from it (its `fields()` list, its metadata field
descriptors, and the resolution behaviour of its `Default::default()` instance,
since the generated code only ever resolves through a fresh default instance);
panics in `meta` become `Except.error` with the panic's data; the pinned future
returned by `resolve_field_async` is modelled by its eventual result.
-/

set_option autoImplicit false

namespace JuniperCompose

/-- Models `std::borrow::Cow<'a, str>`: a name that is either borrowed from the
transient registry or owned. `juniper::Type` stores its names in this form. -/
inductive Cow where
  | borrowed : String → Cow
  | owned : String → Cow
deriving DecidableEq

/-- The string content of a `Cow<'a, str>` (models `Deref`/`to_string`). -/
def Cow.str : Cow → String
  | .borrowed s => s
  | .owned s => s

/-- Models `juniper::Type<'a>`, the recursive type-reference shape:
named, non-null named, list, non-null list. -/
inductive GqlType where
  | named : Cow → GqlType
  | nonNullNamed : Cow → GqlType
  | list : GqlType → GqlType
  | nonNullList : GqlType → GqlType
deriving DecidableEq

/-- Embeds `juniper_compose::type_to_owned` (src/juniper-compose/src/lib.rs):
converts a borrowed/lifetime-scoped `Type<'a>` into an owned `Type<'static>`,
recursing through list constructors and re-owning every name. -/
def type_to_owned : GqlType → GqlType
  | .named name => .named (.owned name.str)
  | .nonNullNamed name => .nonNullNamed (.owned name.str)
  | .list inner => .list (type_to_owned inner)
  | .nonNullList inner => .nonNullList (type_to_owned inner)

/-- The lifetime-free structural content of a type reference: the constructor
nesting together with every contained name, forgetting borrowed/owned. -/
inductive TypeShape where
  | named : String → TypeShape
  | nonNullNamed : String → TypeShape
  | list : TypeShape → TypeShape
  | nonNullList : TypeShape → TypeShape
deriving DecidableEq

/-- Erase a `GqlType` to its structural shape (nesting and names). -/
def GqlType.shape : GqlType → TypeShape
  | .named name => .named name.str
  | .nonNullNamed name => .nonNullNamed name.str
  | .list inner => .list inner.shape
  | .nonNullList inner => .nonNullList inner.shape

/-- Models `juniper::meta::DeprecationStatus`. -/
inductive DeprecationStatus where
  | current
  | deprecated : Option String → DeprecationStatus
deriving DecidableEq

/-- Models `juniper::meta::Argument`: name, description, argument type and
default value (the default value is kept opaque as a string). -/
structure Argument where
  name : String
  description : Option String
  arg_type : GqlType
  default_value : Option String
deriving DecidableEq

/-- Models `juniper::meta::Field`: the schema-visible descriptor of one field. -/
structure Field where
  name : String
  description : Option String
  arguments : Option (List Argument)
  field_type : GqlType
  deprecation_status : DeprecationStatus
deriving DecidableEq

/-- Models the object-type metadata built by
`registry.build_object_type::<Self>(&(), &fields).into_meta()`:
a type name together with its field descriptors. -/
structure MetaType where
  name : String
  fields : List Field
deriving DecidableEq

/-- Models `juniper::meta::MetaType::field_by_name`: the first field descriptor
with the given name. -/
def field_by_name (fields : List Field) (name : String) : Option Field :=
  fields.find? fun field => field.name == name

/-- A resolved GraphQL value, kept opaque. -/
abbrev Value := String

/-- A field-resolution error (`juniper::FieldError`), kept as its message. -/
abbrev FieldError := String

/-- Models `juniper::executor::ExecutionResult`. -/
abbrev ExecutionResult := Except FieldError Value

/-- The `juniper::Arguments` passed to a resolver, kept opaque. -/
abbrev Arguments := List (String × Value)

/-- The `juniper::executor::Executor` handle, kept opaque. -/
abbrev Executor := String

/-- A composed type, as consumed by the code `composite_object!` generates:

* `name` — `<P as juniper::GraphQLType>::name(&())` (an `Option`, unwrapped to
  `"<anonymous>"` in the inconsistency panic);
* `fields` — `<P as ComposableObject>::fields()`, the static field-name list;
* `metaFields` — the field descriptors of `<P as juniper::GraphQLType>::meta`;
* `resolveField` / `resolveFieldAsync` — the resolution behaviour of
  `<P as Default>::default()`, i.e. of the fresh default instance the generated
  dispatch constructs on every call, given the field name, the arguments and
  the executor handle. -/
structure ComposableObject where
  name : Option String
  fields : List String
  metaFields : List Field
  resolveField : String → Arguments → Executor → ExecutionResult
  resolveFieldAsync : String → Arguments → Executor → ExecutionResult

/-- A composed type is well formed when its static field list and its own
metadata agree: every name in `fields()` occurs among its meta fields. The
spec's data model calls the static list the type's field-name set and assumes
this agreement for any non-broken composed type. -/
def WellFormed (c : ComposableObject) : Prop :=
  ∀ f ∈ c.fields, (field_by_name c.metaFields f).isSome

instance (c : ComposableObject) : Decidable (WellFormed c) := by
  unfold WellFormed; infer_instance

/-- The two panics of the generated `GraphQLType::meta`:
`conflict f` for `panic!("Conflicting field in composed objects: \x7b\x7d", f)`
and `unknownField ty f` for
`panic!("Incorrect implementation of ComposableObject on type \x7b\x7d: unknown field \x7b\x7d", ty, f)`. -/
inductive MetaError where
  | conflict : String → MetaError
  | unknownField : String → String → MetaError
deriving DecidableEq

/-- The panic message carried by a `MetaError`, exactly as formatted by the
generated code. -/
def MetaError.message : MetaError → String
  | .conflict f => "Conflicting field in composed objects: " ++ f
  | .unknownField ty f =>
      "Incorrect implementation of ComposableObject on type " ++ ty
        ++ ": unknown field " ++ f

/-- The deep copy of one argument descriptor performed inside the generated
`meta` (name, description and default value cloned, type re-owned through
`type_to_owned`). -/
def copyArgument (a : Argument) : Argument :=
  ⟨a.name, a.description, type_to_owned a.arg_type, a.default_value⟩

/-- The deep copy of one field descriptor pushed onto the accumulating field
list of the generated `meta`. -/
def copyField (f : Field) : Field :=
  ⟨f.name, f.description, f.arguments.map (List.map copyArgument),
    type_to_owned f.field_type, f.deprecation_status⟩

/-- The inner loop of the generated `GraphQLType::meta`, over one composed
type's static field list. `seen` models the `seen_field_names` hash set
(`insert` returning `false` means the name was already present) and `acc` the
accumulating `fields` vector. A panic is an `Except.error`. -/
def processFields (c : ComposableObject) :
    List String → List String → List Field → Except MetaError (List String × List Field)
  | [], seen, acc => .ok (seen, acc)
  | fn :: rest, seen, acc =>
    if fn ∈ seen then .error (.conflict fn)
    else
      match field_by_name c.metaFields fn with
      | none => .error (.unknownField (c.name.getD "<anonymous>") fn)
      | some fld => processFields c rest (seen ++ [fn]) (acc ++ [copyField fld])

/-- The outer loop of the generated `GraphQLType::meta`, over the composed
types in composition order, threading the seen set and the field accumulator. -/
def processComposables :
    List ComposableObject → List String → List Field → Except MetaError (List Field)
  | [], _, acc => .ok acc
  | c :: rest, seen, acc =>
    match processFields c c.fields seen acc with
    | .error e => .error e
    | .ok (seen2, acc2) => processComposables rest seen2 acc2

/-- Embeds the `GraphQLType::meta` body generated by
`expand_impl_graphql_type` (src/juniper-compose-macros/src/lib.rs): run the
accumulation over all composed types starting from an empty seen set and an
empty field list, then register the result under the composite's own literal
type name `name_lit`. -/
def meta (name_lit : String) (composables : List ComposableObject) :
    Except MetaError MetaType :=
  (processComposables composables [] []).map fun fields => ⟨name_lit, fields⟩

/-- The concatenation, in composition order, of the composed types' static
field lists — the names the generated `meta` scans, in scan order. -/
def allFieldsList (composables : List ComposableObject) : List String :=
  composables.flatMap ComposableObject.fields

/-- The field descriptors one well-formed composed type contributes to the
composite: its static field names looked up in its own metadata and copied. -/
def copiedFields (c : ComposableObject) : List Field :=
  c.fields.filterMap fun fn => (field_by_name c.metaFields fn).map copyField

/-- The first name in the list that repeats an earlier name (or one of `seen`),
in scan order — the duplicate on which the generated `meta` panics. -/
def firstDupFrom : List String → List String → Option String
  | [], _ => none
  | x :: xs, seen => if x ∈ seen then some x else firstDupFrom xs (seen ++ [x])

/-- The "field not found" message, exactly as formatted by the generated
dispatch: `format!("Field `\x7b\x7d` not found on type `\x7b\x7d`", field_name, name_lit)`. -/
def fieldNotFoundMsg (field_name name_lit : String) : String :=
  "Field `" ++ field_name ++ "` not found on type `" ++ name_lit ++ "`"

/-- Embeds the `GraphQLValue::resolve_field` body generated by
`expand_impl_graphql_value`: an `if`-chain over the composed types in
composition order; the first whose `fields()` contains the requested name gets
the call, delegated to a fresh default instance with the arguments and executor
passed through; otherwise the "field not found" error on the composite's own
literal name. -/
def resolve_field (composables : List ComposableObject) (name_lit field_name : String)
    (arguments : Arguments) (executor : Executor) : ExecutionResult :=
  match composables with
  | [] => .error (fieldNotFoundMsg field_name name_lit)
  | c :: rest =>
    if field_name ∈ c.fields then c.resolveField field_name arguments executor
    else resolve_field rest name_lit field_name arguments executor

/-- Embeds the `GraphQLValueAsync::resolve_field_async` body generated by
`expand_impl_graphql_value_async`: the same chain, delegating to the composed
type's asynchronous resolver; the pinned future is modelled by its eventual
result, so the `Box::pin(async move \x7b .. .await \x7d)` wrapper is the
identity on that result. -/
def resolve_field_async (composables : List ComposableObject) (name_lit field_name : String)
    (arguments : Arguments) (executor : Executor) : ExecutionResult :=
  match composables with
  | [] => .error (fieldNotFoundMsg field_name name_lit)
  | c :: rest =>
    if field_name ∈ c.fields then c.resolveFieldAsync field_name arguments executor
    else resolve_field_async rest name_lit field_name arguments executor

/-- The composed type the dispatch chain selects for a field name: the first
one, in composition order, whose static field list contains the name. -/
def selectComposable : List ComposableObject → String → Option ComposableObject
  | [], _ => none
  | c :: rest, field_name =>
    if field_name ∈ c.fields then some c else selectComposable rest field_name

/-- Capitalise one word: first character upper-cased, the rest lower-cased. -/
def capitalizeWord (w : String) : String :=
  match w.data with
  | [] => ""
  | ch :: rest => String.mk (ch.toUpper :: rest.map Char.toLower)

/-- Models `heck::ToLowerCamelCase` on Rust method identifiers (an external
dependency of the macro crate): split on underscores, drop empty segments,
lower-case the first word and capitalise the remaining words. -/
def toLowerCamelCase (s : String) : String :=
  match (s.splitOn "_").filter (fun w => w ≠ "") with
  | [] => ""
  | w :: ws => w.toLower ++ String.join (ws.map capitalizeWord)

/-- An item of the `impl` block handed to `#[composable_object]`: either a
method (carrying its declared identifier) or any other impl item. -/
inductive ImplItem where
  | method : String → ImplItem
  | other : ImplItem
deriving DecidableEq

/-- Embeds the `fields()` list emitted by `expand_composable_object`
(src/juniper-compose-macros/src/lib.rs): filter the impl items down to
methods, then map each method's identifier through lower-camel-case. The
emitted list is a `&'static [&'static str]` behind an instance-free associated
function, so it is static, pure and side-effect free. -/
def expand_composable_object (items : List ImplItem) : List String :=
  (items.filterMap fun item =>
      match item with
      | .method ident => some ident
      | .other => none).map toLowerCamelCase

/-- The identifiers of the operations declared in an impl block, in source
order (the `o1..on` of the spec). -/
def methodIdents : List ImplItem → List String
  | [] => []
  | .method ident :: rest => ident :: methodIdents rest
  | .other :: rest => methodIdents rest

/-- A Rust type as it appears in the macro input, kept at token level. -/
abbrev RustType := String

/-- The default context type emitted when no override clause is present:
`parse2(quote! \x7b () \x7d)`. -/
def unitType : RustType := "()"

/-- The parsed `composite_object!` input (struct `CompositeObjectInput`): the
composite's identifier, the optional `<Context = Ty>` override clause (kept as
the override type it carries), and the parenthesised list of composed paths
(each path resolved to the composed type it denotes). -/
structure CompositeObjectInput where
  ident : String
  context_ty : Option RustType
  composables : List ComposableObject

/-- The generated composite: the declared name, the associated context type of
the generated `GraphQLValue` impl, and the composed types in order. -/
structure CompositeDef where
  name : String
  context : RustType
  composables : List ComposableObject
deriving Inhabited

/-- Embeds `expand_composite_object`: emit the zero-sized struct together with
the three impls; the data the emitted impls close over is the name, the
context type and the composed list. -/
def expand_composite_object (name : String) (context : RustType)
    (composables : List ComposableObject) : CompositeDef :=
  ⟨name, context, composables⟩

/-- Embeds the `composite_object` entry point: the context is the override
type when the `<Context = Ty>` clause is present, else the unit type `()`. -/
def composite_object (input : CompositeObjectInput) : CompositeDef :=
  expand_composite_object input.ident (input.context_ty.getD unitType)
    input.composables

/-- Synchronous dispatch of the generated composite. -/
def CompositeDef.resolve (d : CompositeDef) (field_name : String)
    (arguments : Arguments) (executor : Executor) : ExecutionResult :=
  resolve_field d.composables d.name field_name arguments executor

/-- Asynchronous dispatch of the generated composite. -/
def CompositeDef.resolveAsync (d : CompositeDef) (field_name : String)
    (arguments : Arguments) (executor : Executor) : ExecutionResult :=
  resolve_field_async d.composables d.name field_name arguments executor

/-- Concrete sample: a user-queries composed type with fields
`getUser` and `listUsers`, consistent metadata, and distinctive results. -/
def userQueries : ComposableObject :=
  ⟨some "UserQueries", ["getUser", "listUsers"],
    [⟨"getUser", none, none, .nonNullNamed (.borrowed "User"), .current⟩,
     ⟨"listUsers", none, none, .list (.named (.borrowed "User")), .current⟩],
    fun f _ _ => .ok ("user:" ++ f),
    fun f _ _ => .ok ("user-async:" ++ f)⟩

/-- Concrete sample: a task-queries composed type with fields
`getTask` and `listTasks`. -/
def taskQueries : ComposableObject :=
  ⟨some "TaskQueries", ["getTask", "listTasks"],
    [⟨"getTask", none, none, .nonNullNamed (.borrowed "Task"), .current⟩,
     ⟨"listTasks", none, none, .list (.named (.borrowed "Task")), .current⟩],
    fun f _ _ => .ok ("task:" ++ f),
    fun f _ _ => .ok ("task-async:" ++ f)⟩

/-- Concrete sample: a second composed type that also declares `getUser`,
colliding with `userQueries`. -/
def adminQueries : ComposableObject :=
  ⟨some "AdminQueries", ["getUser"],
    [⟨"getUser", none, none, .nonNullNamed (.borrowed "Admin"), .current⟩],
    fun f _ _ => .ok ("admin:" ++ f),
    fun f _ _ => .ok ("admin-async:" ++ f)⟩

/-- Concrete sample: a broken composed type whose static field list names
`ghost`, a field its own metadata does not contain. -/
def brokenQueries : ComposableObject :=
  ⟨some "BrokenQueries", ["ghost"], [],
    fun f _ _ => .ok ("broken:" ++ f),
    fun f _ _ => .ok ("broken-async:" ++ f)⟩


/-! ### Helper lemmas about the duplicate scan -/

theorem firstDupFrom_append (l₁ l₂ seen : List String) :
    firstDupFrom (l₁ ++ l₂) seen =
      match firstDupFrom l₁ seen with
      | some f => some f
      | none => firstDupFrom l₂ (seen ++ l₁) := by
  induction l₁ generalizing seen with
  | nil => simp [firstDupFrom]
  | cons x xs ih =>
    by_cases hx : x ∈ seen
    · simp [firstDupFrom, hx]
    · simp only [List.cons_append, firstDupFrom, if_neg hx]
      erw [ih]
      simp [List.append_assoc]

theorem firstDupFrom_eq_none_iff (l seen : List String) :
    firstDupFrom l seen = none ↔ l.Nodup ∧ ∀ x ∈ l, x ∉ seen := by
  induction l generalizing seen with
  | nil => simp [firstDupFrom]
  | cons x xs ih =>
    by_cases hx : x ∈ seen
    · simp only [firstDupFrom, if_pos hx]
      constructor
      · intro h
        exact absurd h (by simp)
      · rintro ⟨-, hall⟩
        exact absurd hx (hall x (List.mem_cons_self x xs))
    · simp only [firstDupFrom, if_neg hx, ih, List.nodup_cons]
      constructor
      · rintro ⟨hnd, hall⟩
        have h1 : ∀ y ∈ xs, y ∉ seen ∧ y ≠ x := by
          intro y hy
          have hys := hall y hy
          simp only [List.mem_append, List.mem_singleton] at hys
          push_neg at hys
          exact hys
        refine ⟨⟨fun hxm => (h1 x hxm).2 rfl, hnd⟩, ?_⟩
        intro y hy
        rcases List.mem_cons.mp hy with rfl | hy'
        · exact hx
        · exact (h1 y hy').1
      · rintro ⟨⟨hxxs, hnd⟩, hall⟩
        refine ⟨hnd, fun y hy => ?_⟩
        intro hmem
        rcases List.mem_append.mp hmem with hys | hyx
        · exact hall y (List.mem_cons_of_mem x hy) hys
        · rw [List.mem_singleton] at hyx
          subst hyx
          exact hxxs hy

theorem firstDupFrom_mem (l seen : List String) (f : String)
    (h : firstDupFrom l seen = some f) : f ∈ l := by
  induction l generalizing seen with
  | nil => simp [firstDupFrom] at h
  | cons x xs ih =>
    by_cases hx : x ∈ seen
    · simp only [firstDupFrom, if_pos hx, Option.some.injEq] at h
      simp [h.symm]
    · simp only [firstDupFrom, if_neg hx] at h
      exact List.mem_cons_of_mem x (ih _ h)

/-! ### Helper lemmas about the generated `meta` accumulation -/

theorem processFields_entry (c : ComposableObject) (fs₁ rest seen acc)
    (hwf : ∀ g ∈ fs₁, (field_by_name c.metaFields g).isSome)
    (hnd : firstDupFrom fs₁ seen = none) :
    processFields c (fs₁ ++ rest) seen acc =
      processFields c rest (seen ++ fs₁)
        (acc ++ fs₁.filterMap fun g => (field_by_name c.metaFields g).map copyField) := by
  induction fs₁ generalizing seen acc with
  | nil => simp
  | cons g gs ih =>
    have hg : g ∉ seen := by
      intro hgs
      simp [firstDupFrom, hgs] at hnd
    obtain ⟨fld, hfld⟩ := Option.isSome_iff_exists.mp (hwf g (by simp))
    have hnd' : firstDupFrom gs (seen ++ [g]) = none := by
      simpa [firstDupFrom, hg] using hnd
    have step : processFields c ((g :: gs) ++ rest) seen acc
        = processFields c (gs ++ rest) (seen ++ [g]) (acc ++ [copyField fld]) := by
      show processFields c (g :: (gs ++ rest)) seen acc = _
      simp [processFields, hg, hfld]
    rw [step, ih (seen ++ [g]) (acc ++ [copyField fld])
      (fun g' hg' => hwf g' (List.mem_cons_of_mem g hg')) hnd']
    simp [List.filterMap_cons, hfld, List.append_assoc]

theorem processFields_conflict (c : ComposableObject) (fns seen acc) (f : String)
    (hwf : ∀ g ∈ fns, (field_by_name c.metaFields g).isSome)
    (h : firstDupFrom fns seen = some f) :
    processFields c fns seen acc = .error (.conflict f) := by
  induction fns generalizing seen acc with
  | nil => simp [firstDupFrom] at h
  | cons g gs ih =>
    by_cases hg : g ∈ seen
    · have hgf : g = f := by simpa [firstDupFrom, hg] using h
      subst hgf
      simp [processFields, hg]
    · obtain ⟨fld, hfld⟩ := Option.isSome_iff_exists.mp (hwf g (by simp))
      have h' : firstDupFrom gs (seen ++ [g]) = some f := by
        simpa [firstDupFrom, hg] using h
      have step : processFields c (g :: gs) seen acc
          = processFields c gs (seen ++ [g]) (acc ++ [copyField fld]) := by
        simp [processFields, hg, hfld]
      rw [step]
      exact ih _ _ (fun g' hg' => hwf g' (List.mem_cons_of_mem g hg')) h'

theorem processFields_char (c : ComposableObject) (fns seen acc)
    (hwf : ∀ g ∈ fns, (field_by_name c.metaFields g).isSome) :
    processFields c fns seen acc =
      match firstDupFrom fns seen with
      | some f => .error (.conflict f)
      | none => .ok (seen ++ fns,
          acc ++ fns.filterMap fun g => (field_by_name c.metaFields g).map copyField) := by
  cases h : firstDupFrom fns seen with
  | none =>
    have hentry := processFields_entry c fns [] seen acc hwf h
    simpa [processFields] using hentry
  | some f => exact processFields_conflict c fns seen acc f hwf h

theorem processComposables_char (cs : List ComposableObject) (seen acc)
    (hwf : ∀ c ∈ cs, WellFormed c) :
    processComposables cs seen acc =
      match firstDupFrom (allFieldsList cs) seen with
      | some f => .error (.conflict f)
      | none => .ok (acc ++ cs.flatMap copiedFields) := by
  induction cs generalizing seen acc with
  | nil => simp [processComposables, allFieldsList, firstDupFrom]
  | cons c rest ih =>
    have hcwf : WellFormed c := hwf c (by simp)
    have hall : allFieldsList (c :: rest) = c.fields ++ allFieldsList rest := by
      simp [allFieldsList]
    rw [hall, firstDupFrom_append]
    cases h : firstDupFrom c.fields seen with
    | some f =>
      have hpf := processFields_conflict c c.fields seen acc f hcwf h
      simp [processComposables, hpf]
    | none =>
      have hpf := processFields_char c c.fields seen acc hcwf
      rw [h] at hpf
      simp only [processComposables, hpf]
      rw [ih (seen ++ c.fields) _ (fun c' hc' => hwf c' (List.mem_cons_of_mem c hc'))]
      cases h2 : firstDupFrom (allFieldsList rest) (seen ++ c.fields) with
      | some f => simp
      | none => simp [copiedFields, List.append_assoc]

theorem processComposables_entry (cs₁ rest : List ComposableObject) (seen acc)
    (hwf : ∀ c ∈ cs₁, WellFormed c)
    (hnd : firstDupFrom (allFieldsList cs₁) seen = none) :
    processComposables (cs₁ ++ rest) seen acc =
      processComposables rest (seen ++ allFieldsList cs₁)
        (acc ++ cs₁.flatMap copiedFields) := by
  induction cs₁ generalizing seen acc with
  | nil => simp [allFieldsList]
  | cons c cs ih =>
    have hall : allFieldsList (c :: cs) = c.fields ++ allFieldsList cs := by
      simp [allFieldsList]
    rw [hall, firstDupFrom_append] at hnd
    have hc : firstDupFrom c.fields seen = none := by
      cases hfc : firstDupFrom c.fields seen with
      | none => rfl
      | some f => rw [hfc] at hnd; exact absurd hnd (by simp)
    rw [hc] at hnd
    have hcwf : WellFormed c := hwf c (by simp)
    have hpf := processFields_char c c.fields seen acc hcwf
    rw [hc] at hpf
    rw [List.cons_append]
    simp only [processComposables, hpf]
    rw [ih (seen ++ c.fields) _ (fun c' hc' => hwf c' (List.mem_cons_of_mem c hc')) hnd]
    simp [hall, copiedFields, List.append_assoc]

theorem processFields_ok_inv (c : ComposableObject) (fns seen acc seen' acc')
    (h : processFields c fns seen acc = .ok (seen', acc')) :
    firstDupFrom fns seen = none ∧ seen' = seen ++ fns := by
  induction fns generalizing seen acc with
  | nil =>
    simp only [processFields, Except.ok.injEq, Prod.mk.injEq] at h
    exact ⟨rfl, by simpa using h.1.symm⟩
  | cons g gs ih =>
    by_cases hg : g ∈ seen
    · simp [processFields, hg] at h
    · simp only [processFields, if_neg hg] at h
      cases hfld : field_by_name c.metaFields g with
      | none => rw [hfld] at h; simp at h
      | some fld =>
        rw [hfld] at h
        obtain ⟨h1, h2⟩ := ih _ _ h
        refine ⟨by simp [firstDupFrom, hg, h1], ?_⟩
        rw [h2]
        simp [List.append_assoc]

theorem processComposables_ok_inv (cs : List ComposableObject) (seen acc res)
    (h : processComposables cs seen acc = .ok res) :
    firstDupFrom (allFieldsList cs) seen = none := by
  induction cs generalizing seen acc with
  | nil => simp [allFieldsList, firstDupFrom]
  | cons c rest ih =>
    simp only [processComposables] at h
    cases hp : processFields c c.fields seen acc with
    | error e => rw [hp] at h; simp at h
    | ok pair =>
      rw [hp] at h
      obtain ⟨seen2, acc2⟩ := pair
      obtain ⟨h1, hseen2⟩ := processFields_ok_inv c c.fields seen acc seen2 acc2 hp
      have h2 := ih seen2 acc2 h
      rw [hseen2] at h2
      have hall : allFieldsList (c :: rest) = c.fields ++ allFieldsList rest := by
        simp [allFieldsList]
      rw [hall, firstDupFrom_append, h1]
      exact h2

theorem meta_ok_nodup (nm : String) (cs : List ComposableObject) (m : MetaType)
    (h : meta nm cs = .ok m) : (allFieldsList cs).Nodup := by
  unfold meta at h
  cases hp : processComposables cs [] [] with
  | error e => rw [hp] at h; simp [Except.map] at h
  | ok fs =>
    have hnone := processComposables_ok_inv cs [] [] fs hp
    exact ((firstDupFrom_eq_none_iff _ _).mp hnone).1

/-! ### Helper lemmas about field names -/

theorem field_by_name_name (fs : List Field) (n : String) (fld : Field)
    (h : field_by_name fs n = some fld) : fld.name = n := by
  have := List.find?_some h
  exact eq_of_beq this

theorem filterMap_copy_names (c : ComposableObject) (fns : List String)
    (hwf : ∀ g ∈ fns, (field_by_name c.metaFields g).isSome) :
    ((fns.filterMap fun g => (field_by_name c.metaFields g).map copyField).map
      Field.name) = fns := by
  induction fns with
  | nil => simp
  | cons g gs ih =>
    obtain ⟨fld, hfld⟩ := Option.isSome_iff_exists.mp (hwf g (by simp))
    have hname : (copyField fld).name = g := field_by_name_name c.metaFields g fld hfld
    simp [List.filterMap_cons, hfld, hname,
      ih fun g' hg' => hwf g' (List.mem_cons_of_mem g hg')]

theorem flatMap_copied_names (cs : List ComposableObject)
    (hwf : ∀ c ∈ cs, WellFormed c) :
    ((cs.flatMap copiedFields).map Field.name) = allFieldsList cs := by
  induction cs with
  | nil => simp [allFieldsList]
  | cons c rest ih =>
    have h1 := filterMap_copy_names c c.fields (hwf c (by simp))
    simp only [List.flatMap_cons, List.map_append, allFieldsList]
    rw [ih fun c' hc' => hwf c' (List.mem_cons_of_mem c hc')]
    simp only [copiedFields, h1]
    simp [allFieldsList]

theorem not_nodup_of_shared (cs₁ cs₂ : List ComposableObject)
    (c c' : ComposableObject) (f : String)
    (hmem : f ∈ c.fields) (hc' : c' ∈ cs₂) (hf' : f ∈ c'.fields) :
    ¬ (allFieldsList (cs₁ ++ c :: cs₂)).Nodup := by
  intro hnd
  have hall : allFieldsList (cs₁ ++ c :: cs₂)
      = allFieldsList cs₁ ++ (c.fields ++ allFieldsList cs₂) := by
    simp [allFieldsList]
  rw [hall] at hnd
  have h2 := (List.nodup_append.mp hnd).2.1
  have hdisj := (List.nodup_append.mp h2).2.2
  have hmem' : f ∈ allFieldsList cs₂ := by
    simp only [allFieldsList, List.mem_flatMap]
    exact ⟨c', hc', hf'⟩
  exact hdisj hmem hmem'

/-! ### Helper lemmas about the dispatch chains -/

theorem resolve_field_eq_select (cs : List ComposableObject) (nm f : String)
    (a : Arguments) (e : Executor) :
    resolve_field cs nm f a e =
      match selectComposable cs f with
      | some c => c.resolveField f a e
      | none => .error (fieldNotFoundMsg f nm) := by
  induction cs with
  | nil => rfl
  | cons c rest ih =>
    by_cases h : f ∈ c.fields <;> simp [resolve_field, selectComposable, h, ih]

theorem resolve_field_async_eq_select (cs : List ComposableObject) (nm f : String)
    (a : Arguments) (e : Executor) :
    resolve_field_async cs nm f a e =
      match selectComposable cs f with
      | some c => c.resolveFieldAsync f a e
      | none => .error (fieldNotFoundMsg f nm) := by
  induction cs with
  | nil => rfl
  | cons c rest ih =>
    by_cases h : f ∈ c.fields <;> simp [resolve_field_async, selectComposable, h, ih]

theorem selectComposable_first (cs₁ cs₂ : List ComposableObject)
    (c : ComposableObject) (f : String)
    (hskip : ∀ c' ∈ cs₁, f ∉ c'.fields) (hmem : f ∈ c.fields) :
    selectComposable (cs₁ ++ c :: cs₂) f = some c := by
  induction cs₁ with
  | nil => simp [selectComposable, hmem]
  | cons x xs ih =>
    have hx : f ∉ x.fields := hskip x (by simp)
    simp only [List.cons_append, selectComposable, if_neg hx]
    exact ih fun c' hc' => hskip c' (List.mem_cons_of_mem x hc')

theorem selectComposable_eq_none (cs : List ComposableObject) (f : String)
    (h : ∀ c ∈ cs, f ∉ c.fields) :
    selectComposable cs f = none := by
  induction cs with
  | nil => rfl
  | cons c rest ih =>
    have hc : f ∉ c.fields := h c (by simp)
    simp only [selectComposable, if_neg hc]
    exact ih fun c' hc' => h c' (List.mem_cons_of_mem c hc')

/-! ### Claims -/

/-- C1: for every composite built from composed types whose static field-name
lists are pairwise disjoint (their concatenation — the union in composition
order — has no duplicates) and that are well formed (the spec's data-model
assumption that each static list agrees with the type's own metadata), the
generated `meta` succeeds and registers, under the composite's own literal
type name, the field descriptors of all composed types in composition order:
all of the first type's fields in declared order, then the second's, and so
on, with no duplicate names. -/
theorem C1_meta_registers_ordered_union (nm : String) (cs : List ComposableObject)
    (hwf : ∀ c ∈ cs, WellFormed c) (hdisj : (allFieldsList cs).Nodup) :
    meta nm cs = .ok ⟨nm, cs.flatMap copiedFields⟩ ∧
    (cs.flatMap copiedFields).map Field.name = allFieldsList cs ∧
    ((cs.flatMap copiedFields).map Field.name).Nodup := by
  have hnone : firstDupFrom (allFieldsList cs) [] = none :=
    (firstDupFrom_eq_none_iff _ _).mpr ⟨hdisj, by simp⟩
  have hchar := processComposables_char cs [] [] hwf
  rw [hnone] at hchar
  have hnames := flatMap_copied_names cs hwf
  refine ⟨?_, hnames, by rw [hnames]; exact hdisj⟩
  unfold meta
  rw [hchar]
  simp [Except.map]

/-- Witness for C1 at the spec's end-to-end scenario: composing
`userQueries` and `taskQueries` into `Query`. -/
theorem C1_meta_registers_ordered_union_witness :
    (∀ c ∈ [userQueries, taskQueries], WellFormed c) ∧
    (allFieldsList [userQueries, taskQueries]).Nodup ∧
    (meta "Query" [userQueries, taskQueries]
        = .ok ⟨"Query", [userQueries, taskQueries].flatMap copiedFields⟩ ∧
      ([userQueries, taskQueries].flatMap copiedFields).map Field.name
        = allFieldsList [userQueries, taskQueries] ∧
      (([userQueries, taskQueries].flatMap copiedFields).map Field.name).Nodup) :=
  ⟨by decide, by decide,
    C1_meta_registers_ordered_union "Query" [userQueries, taskQueries]
      (by decide) (by decide)⟩

/-- C2: if two composed types share a field name (here: `c` earlier in the
composition, `c'` later, both declaring `g`), the generated `meta` panics with
the "Conflicting field in composed objects" error naming the first duplicate
encountered in composition order, and registers no composite metadata. The
well-formedness hypothesis is the spec's data-model assumption that each
composed type's static field list agrees with its own metadata. -/
theorem C2_collision_aborts_meta (nm g : String) (cs₁ cs₂ : List ComposableObject)
    (c c' : ComposableObject)
    (hwf : ∀ x ∈ cs₁ ++ c :: cs₂, WellFormed x)
    (hc' : c' ∈ cs₂) (hgc : g ∈ c.fields) (hgc' : g ∈ c'.fields) :
    ∃ f, firstDupFrom (allFieldsList (cs₁ ++ c :: cs₂)) [] = some f ∧
      f ∈ allFieldsList (cs₁ ++ c :: cs₂) ∧
      meta nm (cs₁ ++ c :: cs₂) = .error (.conflict f) ∧
      (MetaError.conflict f).message = "Conflicting field in composed objects: " ++ f ∧
      ∀ m, meta nm (cs₁ ++ c :: cs₂) ≠ .ok m := by
  have hnd := not_nodup_of_shared cs₁ cs₂ c c' g hgc hc' hgc'
  have hne : firstDupFrom (allFieldsList (cs₁ ++ c :: cs₂)) [] ≠ none := by
    intro h
    exact hnd ((firstDupFrom_eq_none_iff _ _).mp h).1
  obtain ⟨f, hf⟩ := Option.ne_none_iff_exists'.mp hne
  have hchar := processComposables_char (cs₁ ++ c :: cs₂) [] [] hwf
  rw [hf] at hchar
  have hmeta : meta nm (cs₁ ++ c :: cs₂) = .error (.conflict f) := by
    unfold meta
    rw [hchar]
    rfl
  refine ⟨f, hf, firstDupFrom_mem _ _ _ hf, hmeta, rfl, ?_⟩
  intro m hm
  rw [hmeta] at hm
  exact Except.noConfusion hm

/-- Witness for C2: `userQueries` and `adminQueries` both declare `getUser`. -/
theorem C2_collision_aborts_meta_witness :
    (∀ x ∈ [] ++ userQueries :: [adminQueries], WellFormed x) ∧
    adminQueries ∈ [adminQueries] ∧
    "getUser" ∈ userQueries.fields ∧
    "getUser" ∈ adminQueries.fields ∧
    (∃ f, firstDupFrom (allFieldsList ([] ++ userQueries :: [adminQueries])) [] = some f ∧
      f ∈ allFieldsList ([] ++ userQueries :: [adminQueries]) ∧
      meta "Query" ([] ++ userQueries :: [adminQueries]) = .error (.conflict f) ∧
      (MetaError.conflict f).message = "Conflicting field in composed objects: " ++ f ∧
      ∀ m, meta "Query" ([] ++ userQueries :: [adminQueries]) ≠ .ok m) :=
  ⟨by decide, List.mem_singleton_self _, by decide, by decide,
    C2_collision_aborts_meta "Query" "getUser" [] [adminQueries] userQueries adminQueries
      (by decide) (List.mem_singleton_self _) (by decide) (by decide)⟩

/-- C3: for a field `f` declared by the composed type `c` and by no earlier
composed type, both generated dispatch chains test the composed types in
composition order, select `c` on the first match, and return exactly the
result (value or error) of `c`'s own resolution on a fresh default instance,
unchanged. -/
theorem C3_dispatch_first_match_delegates (nm f : String) (a : Arguments) (e : Executor)
    (cs₁ cs₂ : List ComposableObject) (c : ComposableObject)
    (hskip : ∀ c' ∈ cs₁, f ∉ c'.fields) (hmem : f ∈ c.fields) :
    selectComposable (cs₁ ++ c :: cs₂) f = some c ∧
    resolve_field (cs₁ ++ c :: cs₂) nm f a e = c.resolveField f a e ∧
    resolve_field_async (cs₁ ++ c :: cs₂) nm f a e = c.resolveFieldAsync f a e := by
  have hsel := selectComposable_first cs₁ cs₂ c f hskip hmem
  refine ⟨hsel, ?_, ?_⟩
  · rw [resolve_field_eq_select, hsel]
  · rw [resolve_field_async_eq_select, hsel]

/-- Witness for C3: resolving `getTask` on `Query(userQueries, taskQueries)`
delegates to `taskQueries`. -/
theorem C3_dispatch_first_match_delegates_witness :
    (∀ c' ∈ [userQueries], "getTask" ∉ c'.fields) ∧
    "getTask" ∈ taskQueries.fields ∧
    (selectComposable ([userQueries] ++ taskQueries :: []) "getTask" = some taskQueries ∧
      resolve_field ([userQueries] ++ taskQueries :: []) "Query" "getTask" [] "exec"
        = taskQueries.resolveField "getTask" [] "exec" ∧
      resolve_field_async ([userQueries] ++ taskQueries :: []) "Query" "getTask" [] "exec"
        = taskQueries.resolveFieldAsync "getTask" [] "exec") :=
  ⟨by decide, by decide,
    C3_dispatch_first_match_delegates "Query" "getTask" [] "exec" [userQueries] []
      taskQueries (by decide) (by decide)⟩

/-- C4: for a requested field name contained in no composed type's static
field list, both dispatch chains return (as an ordinary resolution error, not
a panic) exactly the message built from the requested name and the
composite's own declared name. -/
theorem C4_unknown_field_error (nm f : String) (a : Arguments) (e : Executor)
    (cs : List ComposableObject) (h : ∀ c ∈ cs, f ∉ c.fields) :
    resolve_field cs nm f a e
      = .error ("Field `" ++ f ++ "` not found on type `" ++ nm ++ "`") ∧
    resolve_field_async cs nm f a e
      = .error ("Field `" ++ f ++ "` not found on type `" ++ nm ++ "`") := by
  have hsel := selectComposable_eq_none cs f h
  constructor
  · rw [resolve_field_eq_select, hsel]
    rfl
  · rw [resolve_field_async_eq_select, hsel]
    rfl

/-- Witness for C4, the spec's end-to-end scenario: resolving the undeclared
`deleteUser` on `Query(userQueries, taskQueries)`. -/
theorem C4_unknown_field_error_witness :
    (∀ c ∈ [userQueries, taskQueries], "deleteUser" ∉ c.fields) ∧
    (resolve_field [userQueries, taskQueries] "Query" "deleteUser" [] "exec"
        = .error ("Field `" ++ "deleteUser" ++ "` not found on type `" ++ "Query" ++ "`") ∧
      resolve_field_async [userQueries, taskQueries] "Query" "deleteUser" [] "exec"
        = .error ("Field `" ++ "deleteUser" ++ "` not found on type `" ++ "Query" ++ "`")) :=
  ⟨by decide,
    C4_unknown_field_error "Query" "deleteUser" [] "exec" [userQueries, taskQueries]
      (by decide)⟩

/-- C5: the `fields()` list emitted by `#[composable_object]` is exactly the
lower-camel-case transformations of the declared operation identifiers
`o1..on`, in declaration order (non-method impl items are skipped and
contribute nothing). -/
theorem C5_fields_are_ordered_camel_case (items : List ImplItem) :
    expand_composable_object items = (methodIdents items).map toLowerCamelCase := by
  induction items with
  | nil => rfl
  | cons item rest ih =>
    cases item with
    | method ident =>
      simp only [expand_composable_object, List.filterMap_cons, methodIdents,
        List.map_cons] at ih ⊢
      rw [ih]
    | other =>
      simp only [expand_composable_object, List.filterMap_cons, methodIdents] at ih ⊢
      exact ih

/-- C6: when a composed type's static field list names a field `f` that is
absent from that type's own metadata, and the scan reaches `f` (every earlier
composed type is well formed, every field of this type before `f` is found in
its metadata, and no name up to and including `f` repeats an earlier one), the
generated `meta` panics with the inconsistency error reporting the offending
type's name and the missing field name, and registers nothing. -/
theorem C6_broken_composable_fatal (nm f : String)
    (cs₁ cs₂ : List ComposableObject) (c : ComposableObject) (fs₁ fs₂ : List String)
    (hwf₁ : ∀ x ∈ cs₁, WellFormed x)
    (hsplit : c.fields = fs₁ ++ f :: fs₂)
    (hfs₁ : ∀ g ∈ fs₁, (field_by_name c.metaFields g).isSome)
    (hmiss : field_by_name c.metaFields f = none)
    (hfresh : (allFieldsList cs₁ ++ (fs₁ ++ [f])).Nodup) :
    meta nm (cs₁ ++ c :: cs₂) = .error (.unknownField (c.name.getD "<anonymous>") f) ∧
    (MetaError.unknownField (c.name.getD "<anonymous>") f).message
      = "Incorrect implementation of ComposableObject on type "
          ++ c.name.getD "<anonymous>" ++ ": unknown field " ++ f := by
  obtain ⟨hndA, hndB, hdisj⟩ := List.nodup_append.mp hfresh
  obtain ⟨hndfs₁, -, hdisj₂⟩ := List.nodup_append.mp hndB
  have hfnotfs₁ : f ∉ fs₁ := fun hf => hdisj₂ hf (List.mem_singleton_self f)
  have hstep1 : firstDupFrom (allFieldsList cs₁) [] = none :=
    (firstDupFrom_eq_none_iff _ _).mpr ⟨hndA, by simp⟩
  have hentry := processComposables_entry cs₁ (c :: cs₂) [] [] hwf₁ hstep1
  have hstep2 : firstDupFrom fs₁ (allFieldsList cs₁) = none := by
    refine (firstDupFrom_eq_none_iff _ _).mpr ⟨hndfs₁, fun x hx hxA => ?_⟩
    exact hdisj hxA (List.mem_append_left _ hx)
  have hfields := processFields_entry c fs₁ (f :: fs₂) (allFieldsList cs₁)
    (cs₁.flatMap copiedFields) hfs₁ hstep2
  have hfA : f ∉ allFieldsList cs₁ :=
    fun hf => hdisj hf (List.mem_append_right _ (List.mem_singleton_self f))
  have hfseen : f ∉ allFieldsList cs₁ ++ fs₁ := by
    intro hf
    rcases List.mem_append.mp hf with h | h
    · exact hfA h
    · exact hfnotfs₁ h
  have herr : processFields c (f :: fs₂) (allFieldsList cs₁ ++ fs₁)
      (cs₁.flatMap copiedFields
        ++ fs₁.filterMap fun g => (field_by_name c.metaFields g).map copyField)
      = .error (.unknownField (c.name.getD "<anonymous>") f) := by
    simp [processFields, hfseen, hmiss]
  have hproc : processComposables (cs₁ ++ c :: cs₂) [] []
      = .error (.unknownField (c.name.getD "<anonymous>") f) := by
    rw [hentry]
    simp only [List.nil_append]
    simp only [processComposables]
    rw [hsplit, hfields, herr]
  refine ⟨?_, rfl⟩
  unfold meta
  rw [hproc]
  rfl

/-- Witness for C6: `brokenQueries` declares `ghost` in `fields()` but its
own metadata has no such field. -/
theorem C6_broken_composable_fatal_witness :
    (∀ x ∈ [userQueries], WellFormed x) ∧
    brokenQueries.fields = [] ++ "ghost" :: [] ∧
    (∀ g ∈ ([] : List String), (field_by_name brokenQueries.metaFields g).isSome) ∧
    field_by_name brokenQueries.metaFields "ghost" = none ∧
    (allFieldsList [userQueries] ++ ([] ++ ["ghost"])).Nodup ∧
    (meta "Query" ([userQueries] ++ brokenQueries :: [])
        = .error (.unknownField (brokenQueries.name.getD "<anonymous>") "ghost") ∧
      (MetaError.unknownField (brokenQueries.name.getD "<anonymous>") "ghost").message
        = "Incorrect implementation of ComposableObject on type "
            ++ brokenQueries.name.getD "<anonymous>" ++ ": unknown field " ++ "ghost") :=
  ⟨by decide, by decide, by decide, by decide, by decide,
    C6_broken_composable_fatal "Query" "ghost" [userQueries] [] brokenQueries [] []
      (by decide) (by decide) (by decide) (by decide) (by decide)⟩

/-- C7: the asynchronous dispatch chain is equivalent to the synchronous one
in routing and failure: both are the match on the same first-matching composed
type (in the same composition order), each delegating one call to that type's
synchronous respectively asynchronous resolution, and in the no-match case
both produce an error with the identical message text. -/
theorem C7_async_sync_equivalent (cs : List ComposableObject) (nm f : String)
    (a : Arguments) (e : Executor) :
    (resolve_field cs nm f a e =
      match selectComposable cs f with
      | some c => c.resolveField f a e
      | none => .error (fieldNotFoundMsg f nm)) ∧
    (resolve_field_async cs nm f a e =
      match selectComposable cs f with
      | some c => c.resolveFieldAsync f a e
      | none => .error (fieldNotFoundMsg f nm)) ∧
    (selectComposable cs f = none →
      resolve_field cs nm f a e = resolve_field_async cs nm f a e) := by
  refine ⟨resolve_field_eq_select cs nm f a e,
    resolve_field_async_eq_select cs nm f a e, ?_⟩
  intro hnone
  rw [resolve_field_eq_select, resolve_field_async_eq_select, hnone]

/-- C8: `type_to_owned` preserves structural equality: the constructor nesting
and every contained name of a type-reference shape are unchanged by the
borrowed-to-owned conversion, for arbitrary nesting of the four constructors. -/
theorem C8_type_to_owned_preserves_shape (t : GqlType) :
    (type_to_owned t).shape = t.shape := by
  induction t with
  | named n => rfl
  | nonNullNamed n => rfl
  | list inner ih => simp [type_to_owned, GqlType.shape, ih]
  | nonNullList inner ih => simp [type_to_owned, GqlType.shape, ih]

/-- C9: with a `<Context = Ty>` override clause the generated composite's
associated context type is exactly the override type; without it, it is the
unit type `()`; and in both cases synchronous and asynchronous field dispatch
behave identically for every field name. -/
theorem C9_context_override (ident : String) (ty : RustType) (cs : List ComposableObject)
    (f : String) (a : Arguments) (e : Executor) :
    (composite_object ⟨ident, some ty, cs⟩).context = ty ∧
    (composite_object ⟨ident, none, cs⟩).context = unitType ∧
    (composite_object ⟨ident, some ty, cs⟩).resolve f a e
      = (composite_object ⟨ident, none, cs⟩).resolve f a e ∧
    (composite_object ⟨ident, some ty, cs⟩).resolveAsync f a e
      = (composite_object ⟨ident, none, cs⟩).resolveAsync f a e :=
  ⟨rfl, rfl, rfl, rfl⟩

/-- C10 (implicit): the dispatch chains perform no collision detection. When a
field `f` is declared both by `c` and by a later composed type `c'`, both
dispatch chains silently delegate to `c` — the earliest declaring type — for
every later tail `cs₂` and never consult it, even though `meta` on the same
composition can never succeed. -/
theorem C10_dispatch_ignores_collision (nm f : String) (a : Arguments) (e : Executor)
    (cs₁ cs₂ : List ComposableObject) (c c' : ComposableObject)
    (hskip : ∀ x ∈ cs₁, f ∉ x.fields) (hmem : f ∈ c.fields)
    (hc' : c' ∈ cs₂) (hf' : f ∈ c'.fields) :
    resolve_field (cs₁ ++ c :: cs₂) nm f a e = c.resolveField f a e ∧
    resolve_field_async (cs₁ ++ c :: cs₂) nm f a e = c.resolveFieldAsync f a e ∧
    ∀ m, meta nm (cs₁ ++ c :: cs₂) ≠ .ok m := by
  have hsel := selectComposable_first cs₁ cs₂ c f hskip hmem
  refine ⟨?_, ?_, ?_⟩
  · rw [resolve_field_eq_select, hsel]
  · rw [resolve_field_async_eq_select, hsel]
  · intro m hm
    exact not_nodup_of_shared cs₁ cs₂ c c' f hmem hc' hf'
      (meta_ok_nodup nm (cs₁ ++ c :: cs₂) m hm)

/-- Witness for C10: `userQueries` and `adminQueries` both declare `getUser`;
dispatch silently resolves it through `userQueries` while `meta` cannot
succeed on this composition. -/
theorem C10_dispatch_ignores_collision_witness :
    (∀ x ∈ ([] : List ComposableObject), "getUser" ∉ x.fields) ∧
    "getUser" ∈ userQueries.fields ∧
    adminQueries ∈ [adminQueries] ∧
    "getUser" ∈ adminQueries.fields ∧
    (resolve_field ([] ++ userQueries :: [adminQueries]) "Query" "getUser" [] "exec"
        = userQueries.resolveField "getUser" [] "exec" ∧
      resolve_field_async ([] ++ userQueries :: [adminQueries]) "Query" "getUser" [] "exec"
        = userQueries.resolveFieldAsync "getUser" [] "exec" ∧
      ∀ m, meta "Query" ([] ++ userQueries :: [adminQueries]) ≠ .ok m) :=
  ⟨by decide, by decide, List.mem_singleton_self _, by decide,
    C10_dispatch_ignores_collision "Query" "getUser" [] "exec" [] [adminQueries]
      userQueries adminQueries (by decide) (by decide)
      (List.mem_singleton_self _) (by decide)⟩

end JuniperCompose
